import Mathlib

/-!
Shallow embedding of the MPD `volume_ramp` filter plugin
(`src/filter/plugins/VolumeRampFilterPlugin.cxx` and
`VolumeRampFilterPluginImpl.hxx`), together with theorems checking the
natural-language specification against it.

Bytes of the PCM stream are modelled as integers (`ℤ`); the timing
accumulator `cur_time` (a C `float`) is modelled with exact rationals,
which preserves the structural behaviour (comparisons, thresholds,
linear gain formula) that the specification is about.
-/

namespace VolumeRamp

/-- The four states of the filter, from `VolumeRampFilterPluginImpl.hxx`. -/
inductive VolumeRampState where
  | RampDown
  | Silence
  | RampUp
  | Final
deriving DecidableEq, Repr

/-- Modelled from the spec: the audio-format descriptor (an external
collaborator, `pcm/AudioFormat.hxx`, not under `src/`): sample rate,
per-frame byte size, and duration↔byte-length conversion.  The canonical
silence byte value of the sample encoding is carried as a field. -/
structure AudioFormat where
  sampleRate : ℕ
  frameSize : ℕ
  silenceByte : ℤ
deriving DecidableEq, Repr

/-- Modelled from the spec: `AudioFormat::TimeToSize` — seconds to bytes,
`size_t(sample_rate * frame_size * t)` (truncating cast). -/
def AudioFormat.TimeToSize (fmt : AudioFormat) (t : ℚ) : ℕ :=
  (Int.toNat ⌊((fmt.sampleRate : ℚ) * (fmt.frameSize : ℚ)) * t⌋)

/-- Modelled from the spec: `AudioFormat::SizeToTime` — bytes to seconds,
`size / (sample_rate * frame_size)`. -/
def AudioFormat.SizeToTime (fmt : AudioFormat) (n : ℕ) : ℚ :=
  (n : ℚ) / ((fmt.sampleRate : ℚ) * (fmt.frameSize : ℚ))

/-- Full scale of the PCM volume primitive (`pcm/Volume.hxx`: 1 << 10). -/
def PCM_VOLUME_1 : ℕ := 1024

/-- Modelled from the spec: the silence-generation primitive
(`pcm/Silence.hxx`, not under `src/`) — fills a region with the format's
canonical silence pattern. -/
def PcmSilence (fmt : AudioFormat) (n : ℕ) : List ℤ :=
  List.replicate n fmt.silenceByte

/-- Modelled from the spec: the low-level PCM gain-scaling primitive
(`PcmVolume::Apply`, not under `src/`) — scales every sample by
`volume / PCM_VOLUME_1`.  Multi-byte sample layout is abstracted: one list
element stands for one encoded sample value. -/
def PcmVolumeApply (volume : ℕ) (data : List ℤ) : List ℤ :=
  data.map (fun s => (s * (volume : ℤ)) / (PCM_VOLUME_1 : ℤ))

/-- The ramp-up gain of `VolumeRampFilter::FilterPCM` (line 121):
`std::min((unsigned)((cur_time / volume_ramp_time) * PCM_VOLUME_1), PCM_VOLUME_1)`.
The truncating `unsigned` cast is `Int.toNat ∘ Int.floor` for the
non-negative accumulator values that occur. -/
def rampUpVolume (rt t : ℚ) : ℕ :=
  min (Int.toNat ⌊t / rt * (PCM_VOLUME_1 : ℚ)⌋) PCM_VOLUME_1

/-- The ramp-down gain of `VolumeRampFilter::Flush` (line 207):
`std::min((unsigned)((1.0f - cur_time / volume_ramp_time) * PCM_VOLUME_1), PCM_VOLUME_1)`. -/
def rampDownVolume (rt t : ℚ) : ℕ :=
  min (Int.toNat ⌊(1 - t / rt) * (PCM_VOLUME_1 : ℚ)⌋) PCM_VOLUME_1

/-- State of a `VolumeRampFilter` instance (`VolumeRampFilterPluginImpl.hxx`).
`pv_volume` is the volume held by the embedded `PcmVolume`; `delay_buf` is
the delay line (modelled from the spec: `DynamicFifoBuffer`, a byte FIFO
with append-at-tail, read-prefix, consume-prefix); `last_delay_buf_size`
is the pending-consume bookkeeping.  The configuration fields
`volume_ramp_time`, `silence_add_time`, `ramp_block_size` and the bound
`input_fmt` are immutable after construction. -/
structure VolumeRampFilter where
  pv_volume : ℕ
  state : VolumeRampState
  cur_time : ℚ
  delay_buf : List ℤ
  last_delay_buf_size : ℕ
  volume_ramp_time : ℚ
  silence_add_time : ℚ
  ramp_block_size : ℕ
  input_fmt : AudioFormat
deriving DecidableEq, Repr

/-- `VolumeRampFilter::VolumeRampFilter` (lines 49–63): allocate the delay
buffer with capacity `TimeToSize(ramp_time)`, fill it with silence, start
in `Silence` with a zero accumulator.  (`PcmVolume` starts at full scale.) -/
def mkVolumeRampFilter (fmt : AudioFormat) (ramp_time add_time : ℚ)
    (block_size : ℕ) : VolumeRampFilter :=
  { pv_volume := PCM_VOLUME_1
    state := VolumeRampState.Silence
    cur_time := 0
    delay_buf := PcmSilence fmt (fmt.TimeToSize ramp_time)
    last_delay_buf_size := 0
    volume_ramp_time := ramp_time
    silence_add_time := add_time
    ramp_block_size := block_size
    input_fmt := fmt }

/-- `VolumeRampFilter::trigger` (lines 65–69). -/
def VolumeRampFilter.trigger (f : VolumeRampFilter) : VolumeRampFilter :=
  { f with cur_time := 0, state := VolumeRampState.Silence }

/-- `VolumeRampFilter::Reset` (lines 147–151). -/
def VolumeRampFilter.Reset (f : VolumeRampFilter) : VolumeRampFilter :=
  { f with cur_time := 0, state := VolumeRampState.Silence }

/-- The pending-consume step at the top of both `FilterPCM` (lines 73–77)
and `Flush` (lines 191–195): discard from the delay line whatever was
returned by the previous call. -/
def VolumeRampFilter.consumePending (f : VolumeRampFilter) : VolumeRampFilter :=
  if f.last_delay_buf_size ≠ 0 then
    { f with delay_buf := f.delay_buf.drop f.last_delay_buf_size
             last_delay_buf_size := 0 }
  else f

/-- One iteration of the sub-block loop of `FilterPCM` (lines 106–141): the
`switch (state)`.  Returns the successor state, accumulator, the volume
passed to `pv.SetVolume` (if any), and the transformed sub-block.
In `RampDown`/`Silence` the sub-block is overwritten with silence and the
accumulator advances; crossing `volume_ramp_time + silence_add_time` resets
it and moves to `RampUp`.  In `RampUp` the linear gain is applied; crossing
`volume_ramp_time` resets the accumulator and moves to `Final`.  In `Final`
the sub-block is copied onto itself (a no-op). -/
def subBlockStep (fmt : AudioFormat) (rt sat : ℚ) (st : VolumeRampState)
    (t : ℚ) (cur : List ℤ) : VolumeRampState × ℚ × Option ℕ × List ℤ :=
  match st with
  | VolumeRampState.RampDown | VolumeRampState.Silence =>
    let t1 := t + fmt.SizeToTime cur.length
    let st1 := if t1 ≥ rt + sat then (VolumeRampState.RampUp, (0 : ℚ)) else (st, t1)
    (st1.1, st1.2, some 0, PcmSilence fmt cur.length)
  | VolumeRampState.RampUp =>
    let volume := rampUpVolume rt t
    let t1 := t + fmt.SizeToTime cur.length
    let st1 := if t1 ≥ rt then (VolumeRampState.Final, (0 : ℚ))
               else (VolumeRampState.RampUp, t1)
    (st1.1, st1.2, some volume, PcmVolumeApply volume cur)
  | VolumeRampState.Final => (VolumeRampState.Final, t, none, cur)

/-- Split a chunk into sub-blocks of `blockSize` elements, the last possibly
shorter — the iteration pattern of the loop at line 101
(`for(size_t i = 0; i < src.size(); i += block_size)`).  When
`blockSize = 0` the C++ loop would never advance; the model returns no
sub-blocks in that (never reachable with a valid format) case to stay total. -/
def splitBlocks (blockSize : ℕ) (chunk : List ℤ) : List (List ℤ) :=
  if _h : chunk = [] ∨ blockSize = 0 then []
  else chunk.take blockSize :: splitBlocks blockSize (chunk.drop blockSize)
termination_by chunk.length
decreasing_by
  simp only [not_or] at _h
  simpa [List.length_drop] using
    Nat.sub_lt (List.length_pos.mpr _h.1) (Nat.pos_of_ne_zero _h.2)

/-- The sub-block loop of `FilterPCM` (lines 101–142), iterated over the
sub-blocks of the delayed chunk.  Returns the final state, accumulator and
`PcmVolume` volume, the in-place-transformed chunk, and (as an observer)
the list of volumes passed to `pv.SetVolume`, one per sub-block handled in
a ramping state. -/
def processBlocks (fmt : AudioFormat) (rt sat : ℚ) :
    VolumeRampState → ℚ → ℕ → List (List ℤ) →
    VolumeRampState × ℚ × ℕ × List ℤ × List ℕ
  | st, t, pv, [] => (st, t, pv, [], [])
  | st, t, pv, cur :: rest =>
    let s := subBlockStep fmt rt sat st t cur
    let r := processBlocks fmt rt sat s.1 s.2.1 (s.2.2.1.getD pv) rest
    (r.1, r.2.1, r.2.2.1, s.2.2.2 ++ r.2.2.2.1, s.2.2.1.toList ++ r.2.2.2.2)

/-- `VolumeRampFilter::FilterPCM` (lines 71–145).  Consume the previously
returned bytes; append `src` to the delay line; read back the same-length
delayed prefix.  In `Final` return it untouched; otherwise transform it in
place sub-block by sub-block and return it.  The returned pair is
(updated filter, returned bytes). -/
def VolumeRampFilter.FilterPCM (f0 : VolumeRampFilter) (src : List ℤ) :
    VolumeRampFilter × List ℤ :=
  let f := f0.consumePending
  let buf := f.delay_buf ++ src
  if f.state = VolumeRampState.Final then
    let delayed := buf.take src.length
    ({ f with delay_buf := buf, last_delay_buf_size := src.length }, delayed)
  else
    let delayed := buf.take src.length
    let block_size := f.input_fmt.frameSize * f.ramp_block_size
    let r := processBlocks f.input_fmt f.volume_ramp_time f.silence_add_time
        f.state f.cur_time f.pv_volume (splitBlocks block_size delayed)
    ({ f with state := r.1, cur_time := r.2.1, pv_volume := r.2.2.1
              delay_buf := r.2.2.2.1 ++ buf.drop src.length
              last_delay_buf_size := src.length },
     r.2.2.2.1)

/-- Observer for the volumes set during one `FilterPCM` call (the
`pv.SetVolume` arguments of the sub-block loop, in order). -/
def VolumeRampFilter.FilterGains (f0 : VolumeRampFilter) (src : List ℤ) :
    List ℕ :=
  let f := f0.consumePending
  let buf := f.delay_buf ++ src
  if f.state = VolumeRampState.Final then []
  else
    let delayed := buf.take src.length
    let block_size := f.input_fmt.frameSize * f.ramp_block_size
    (processBlocks f.input_fmt f.volume_ramp_time f.silence_add_time
        f.state f.cur_time f.pv_volume (splitBlocks block_size delayed)).2.2.2.2

/-- `VolumeRampFilter::Flush` (lines 189–240).  Consume the previously
returned bytes; in `Silence` set the volume to zero, zero the accumulator
and return an empty span.  Otherwise (with `RampUp` first mirroring the
accumulator, and `RampUp`/`Final` falling through to `RampDown`):
compute the ramp-down gain, advance the accumulator by one block of
`ramp_block_size` frames, append that much silence to the delay line, and
return the delayed chunk of that size with the gain applied. -/
def VolumeRampFilter.Flush (f0 : VolumeRampFilter) :
    VolumeRampFilter × List ℤ :=
  let f := f0.consumePending
  match f.state with
  | VolumeRampState.Silence =>
    ({ f with pv_volume := 0, cur_time := 0 }, [])
  | st =>
    let rt := f.volume_ramp_time
    let t0 := if st = VolumeRampState.RampUp then rt - f.cur_time else f.cur_time
    let volume := rampDownVolume rt t0
    let cur_block_size := f.ramp_block_size * f.input_fmt.frameSize
    let t1 := t0 + f.input_fmt.SizeToTime cur_block_size
    let st2 := if t1 ≥ rt then (VolumeRampState.Silence, (0 : ℚ))
               else (VolumeRampState.RampDown, t1)
    let buf := f.delay_buf ++ PcmSilence f.input_fmt cur_block_size
    let delayed := buf.take cur_block_size
    ({ f with state := st2.1, cur_time := st2.2, pv_volume := volume
              delay_buf := buf, last_delay_buf_size := cur_block_size },
     PcmVolumeApply volume delayed)

/-- Modelled from the spec: a configuration block (`config/Block.hxx`, not
under `src/`) as seen through `strtof`/`strtoul`: for each key, `none`
means the key is absent or its value unparsable (the C parse of
`GetBlockValue(key, "")` yields 0 in both cases), `some v` means the value
parses to `v`. -/
structure ConfigBlock where
  ramp_seconds : Option ℚ
  silence_seconds : Option ℚ
  block_size : Option ℕ
deriving DecidableEq, Repr

/-- State of `PreparedVolumeRampFilter` (`VolumeRampFilterPluginImpl.hxx`). -/
structure PreparedVolumeRampFilter where
  volume_ramp_time : ℚ
  silence_add_time : ℚ
  ramp_block_size : ℕ
deriving DecidableEq, Repr

/-- `PreparedVolumeRampFilter::PreparedVolumeRampFilter` (lines 270–278):
defaults 0.1 s, 0.1 s, 64 frames; each overridden exactly when the parsed
configured value is non-zero. -/
def mkPreparedVolumeRampFilter (cfg : ConfigBlock) : PreparedVolumeRampFilter :=
  let cfg_ramp_time := cfg.ramp_seconds.getD 0
  let cfg_add_time := cfg.silence_seconds.getD 0
  let cfg_block_size := cfg.block_size.getD 0
  { volume_ramp_time := if cfg_ramp_time ≠ 0 then cfg_ramp_time else 1 / 10
    silence_add_time := if cfg_add_time ≠ 0 then cfg_add_time else 1 / 10
    ramp_block_size := if cfg_block_size ≠ 0 then cfg_block_size else 64 }

/-- `PreparedVolumeRampFilter::Open` (lines 280–282). -/
def PreparedVolumeRampFilter.Open (p : PreparedVolumeRampFilter)
    (af : AudioFormat) : VolumeRampFilter :=
  mkVolumeRampFilter af p.volume_ramp_time p.silence_add_time p.ramp_block_size

/-- Fold of `FilterPCM` over a list of input blocks, collecting the
returned bytes of every call. -/
def runProcess : VolumeRampFilter → List (List ℤ) → VolumeRampFilter × List (List ℤ)
  | f, [] => (f, [])
  | f, b :: bs =>
    let r := f.FilterPCM b
    let rest := runProcess r.1 bs
    (rest.1, r.2 :: rest.2)

/-- Concatenated `pv.SetVolume` arguments over a run of `FilterPCM` calls. -/
def runGains : VolumeRampFilter → List (List ℤ) → List ℕ
  | _, [] => []
  | f, b :: bs => f.FilterGains b ++ runGains (f.FilterPCM b).1 bs

/-- The sub-block loop invocation made by one non-`Final` `FilterPCM` call
(the arguments of `processBlocks` as assembled in lines 90–101). -/
def pcmLoop (f : VolumeRampFilter) (src : List ℤ) :
    VolumeRampState × ℚ × ℕ × List ℤ × List ℕ :=
  processBlocks f.input_fmt f.volume_ramp_time f.silence_add_time f.state
    f.cur_time f.pv_volume
    (splitBlocks (f.input_fmt.frameSize * f.ramp_block_size)
      ((f.delay_buf.drop f.last_delay_buf_size ++ src).take src.length))

/-- Iterated `Flush`: the filter after `k` flush calls. -/
def flushN (f : VolumeRampFilter) : ℕ → VolumeRampFilter
  | 0 => f
  | k + 1 => ((flushN f k).Flush).1

/-- The bytes returned by flush call number `k + 1` (zero-based index `k`)
when `Flush` is called repeatedly with no other operation in between. -/
def flushOut (f : VolumeRampFilter) (k : ℕ) : List ℤ :=
  ((flushN f k).Flush).2

/-- The filter states reachable from construction by any sequence of
`FilterPCM`, `Flush`, `trigger`, `Reset`. -/
inductive Reachable (fmt : AudioFormat) (rt sat : ℚ) (bs : ℕ) :
    VolumeRampFilter → Prop where
  | mk : Reachable fmt rt sat bs (mkVolumeRampFilter fmt rt sat bs)
  | process (f : VolumeRampFilter) (src : List ℤ) :
      Reachable fmt rt sat bs f → Reachable fmt rt sat bs (f.FilterPCM src).1
  | flush (f : VolumeRampFilter) :
      Reachable fmt rt sat bs f → Reachable fmt rt sat bs (f.Flush).1
  | trig (f : VolumeRampFilter) :
      Reachable fmt rt sat bs f → Reachable fmt rt sat bs f.trigger
  | reset (f : VolumeRampFilter) :
      Reachable fmt rt sat bs f → Reachable fmt rt sat bs f.Reset

/-! ### Basic lemmas about the embedded operations -/

theorem subBlockStep_out_length (fmt : AudioFormat) (rt sat : ℚ)
    (st : VolumeRampState) (t : ℚ) (cur : List ℤ) :
    ((subBlockStep fmt rt sat st t cur).2.2.2).length = cur.length := by
  cases st <;> simp [subBlockStep, PcmSilence, PcmVolumeApply]

theorem processBlocks_out_length (fmt : AudioFormat) (rt sat : ℚ)
    (st : VolumeRampState) (t : ℚ) (pv : ℕ) (blocks : List (List ℤ)) :
    ((processBlocks fmt rt sat st t pv blocks).2.2.2.1).length
      = blocks.flatten.length := by
  induction blocks generalizing st t pv with
  | nil => simp [processBlocks]
  | cons cur rest ih =>
    simp [processBlocks, ih, subBlockStep_out_length]

theorem splitBlocks_nil (blockSize : ℕ) : splitBlocks blockSize [] = [] := by
  rw [splitBlocks]
  simp

theorem splitBlocks_flatten_aux (blockSize : ℕ) (hbs : blockSize ≠ 0) :
    ∀ n chunk, List.length chunk ≤ n →
      (splitBlocks blockSize chunk).flatten = chunk := by
  intro n
  induction n with
  | zero =>
    intro chunk hc
    have : chunk = [] := List.length_eq_zero.mp (Nat.le_zero.mp hc)
    subst this
    rw [splitBlocks]
    simp
  | succ n ih =>
    intro chunk hc
    rw [splitBlocks]
    split
    · rename_i h
      rcases h with h | h
      · simp [h]
      · exact absurd h hbs
    · rename_i h
      simp only [not_or] at h
      have hdrop : (chunk.drop blockSize).length ≤ n := by
        have := Nat.sub_lt (List.length_pos.mpr h.1) (Nat.pos_of_ne_zero h.2)
        simp only [List.length_drop]
        omega
      simp [ih _ hdrop, List.take_append_drop]

theorem splitBlocks_flatten (blockSize : ℕ) (hbs : blockSize ≠ 0)
    (chunk : List ℤ) : (splitBlocks blockSize chunk).flatten = chunk :=
  splitBlocks_flatten_aux blockSize hbs chunk.length chunk le_rfl

theorem splitBlocks_mem_ne_nil_aux (blockSize : ℕ) :
    ∀ n chunk, List.length chunk ≤ n →
      ∀ b ∈ splitBlocks blockSize chunk, b ≠ [] := by
  intro n
  induction n with
  | zero =>
    intro chunk hc
    have : chunk = [] := List.length_eq_zero.mp (Nat.le_zero.mp hc)
    subst this
    rw [splitBlocks]
    simp
  | succ n ih =>
    intro chunk hc
    rw [splitBlocks]
    split
    · simp
    · rename_i h
      simp only [not_or] at h
      intro b hb
      rcases List.mem_cons.mp hb with hb | hb
      · subst hb
        intro hcontra
        rw [List.take_eq_nil_iff] at hcontra
        tauto
      · have hdrop : (chunk.drop blockSize).length ≤ n := by
          have := Nat.sub_lt (List.length_pos.mpr h.1) (Nat.pos_of_ne_zero h.2)
          simp only [List.length_drop]
          omega
        exact ih _ hdrop b hb

theorem splitBlocks_mem_ne_nil (blockSize : ℕ) (chunk : List ℤ) :
    ∀ b ∈ splitBlocks blockSize chunk, b ≠ [] :=
  splitBlocks_mem_ne_nil_aux blockSize chunk.length chunk le_rfl

theorem consumePending_eq (f : VolumeRampFilter) :
    f.consumePending = { f with delay_buf := f.delay_buf.drop f.last_delay_buf_size
                                last_delay_buf_size := 0 } := by
  unfold VolumeRampFilter.consumePending
  split
  · rfl
  · rename_i h
    simp only [ne_eq, not_not] at h
    rcases f with ⟨pv, st, t, db, last, rt, sat, bs, fmt⟩
    simp_all

theorem processBlocks_nil (fmt : AudioFormat) (rt sat : ℚ)
    (st : VolumeRampState) (t : ℚ) (pv : ℕ) :
    processBlocks fmt rt sat st t pv [] = (st, t, pv, [], []) := rfl

theorem processBlocks_cons (fmt : AudioFormat) (rt sat : ℚ)
    (st : VolumeRampState) (t : ℚ) (pv : ℕ) (cur : List ℤ)
    (rest : List (List ℤ)) :
    processBlocks fmt rt sat st t pv (cur :: rest) =
      (let s := subBlockStep fmt rt sat st t cur
       let r := processBlocks fmt rt sat s.1 s.2.1 (s.2.2.1.getD pv) rest
       (r.1, r.2.1, r.2.2.1, s.2.2.2 ++ r.2.2.2.1,
        s.2.2.1.toList ++ r.2.2.2.2)) := rfl

theorem SizeToTime_nonneg (fmt : AudioFormat) (n : ℕ) :
    0 ≤ fmt.SizeToTime n := by
  unfold AudioFormat.SizeToTime
  positivity

theorem SizeToTime_add (fmt : AudioFormat) (a b : ℕ) :
    fmt.SizeToTime (a + b) = fmt.SizeToTime a + fmt.SizeToTime b := by
  unfold AudioFormat.SizeToTime
  push_cast
  ring

theorem SizeToTime_pos (fmt : AudioFormat) (hr : 0 < fmt.sampleRate)
    (hf : 0 < fmt.frameSize) (n : ℕ) (hn : 0 < n) :
    0 < fmt.SizeToTime n := by
  unfold AudioFormat.SizeToTime
  have h1 : (0 : ℚ) < (fmt.sampleRate : ℚ) := by exact_mod_cast hr
  have h2 : (0 : ℚ) < (fmt.frameSize : ℚ) := by exact_mod_cast hf
  have h3 : (0 : ℚ) < (n : ℚ) := by exact_mod_cast hn
  positivity

/-- Forward processing in `Silence`/`RampDown` writes silence to every
sub-block, as long as the accumulated time stays below the
`rt + sat` threshold for the whole chunk. -/
theorem processBlocks_silence (fmt : AudioFormat) (rt sat : ℚ)
    (hr : 0 < fmt.sampleRate) (hf : 0 < fmt.frameSize)
    (blocks : List (List ℤ)) :
    ∀ st t pv,
      (st = VolumeRampState.Silence ∨ st = VolumeRampState.RampDown) →
      (∀ b ∈ blocks, b ≠ []) →
      t + fmt.SizeToTime blocks.flatten.length ≤ rt + sat →
      (processBlocks fmt rt sat st t pv blocks).2.2.2.1
        = PcmSilence fmt blocks.flatten.length := by
  induction blocks with
  | nil =>
    intro st t pv _ _ _
    simp [processBlocks, PcmSilence]
  | cons cur rest ih =>
    intro st t pv hst hne hbound
    cases rest with
    | nil =>
      rcases hst with hst | hst <;>
        (subst hst
         rw [processBlocks_cons]
         simp [subBlockStep, processBlocks_nil, PcmSilence])
    | cons b rest2 =>
      have hb1 : b ≠ [] := hne b (by simp)
      have hL : 0 < ((b :: rest2).flatten).length := by
        have : 0 < b.length := List.length_pos.mpr hb1
        simp only [List.flatten_cons, List.length_append]
        omega
      have hflat : ((cur :: b :: rest2).flatten).length
          = cur.length + ((b :: rest2).flatten).length := by
        simp
      have hlt : t + fmt.SizeToTime cur.length < rt + sat := by
        have hsplit := SizeToTime_add fmt cur.length ((b :: rest2).flatten).length
        have hpos := SizeToTime_pos fmt hr hf _ hL
        rw [hflat] at hbound
        rw [hsplit] at hbound
        linarith
      have hnot : ¬ (t + fmt.SizeToTime cur.length ≥ rt + sat) := not_le.mpr hlt
      have hrec := ih st (t + fmt.SizeToTime cur.length) 0
        hst (fun x hx => hne x (by simp [hx]))
        (by
          have hsplit := SizeToTime_add fmt cur.length ((b :: rest2).flatten).length
          rw [hflat] at hbound
          rw [hsplit] at hbound
          linarith)
      rcases hst with hst | hst <;>
        (subst hst
         rw [processBlocks_cons]
         simp only [subBlockStep, if_neg hnot, Option.getD_some]
         rw [hrec]
         simp only [PcmSilence, List.flatten_cons, List.length_append]
         rw [List.append_replicate_replicate])

/-- A `FilterPCM` call made in `Silence` or `RampDown` whose whole chunk
stays below the `rt + sat` threshold returns pure silence. -/
theorem FilterPCM_silence (f : VolumeRampFilter) (src : List ℤ)
    (hr : 0 < f.input_fmt.sampleRate) (hf : 0 < f.input_fmt.frameSize)
    (hb : 0 < f.ramp_block_size)
    (hst : f.state = VolumeRampState.Silence ∨
      f.state = VolumeRampState.RampDown)
    (hbound : f.cur_time + f.input_fmt.SizeToTime src.length
      ≤ f.volume_ramp_time + f.silence_add_time) :
    (f.FilterPCM src).2 = PcmSilence f.input_fmt src.length := by
  have hnf : ¬ (f.state = VolumeRampState.Final) := by
    rcases hst with h | h <;> simp [h]
  have hbs : f.input_fmt.frameSize * f.ramp_block_size ≠ 0 := by
    have := Nat.mul_pos hf hb
    omega
  have hdlen : ((f.delay_buf.drop f.last_delay_buf_size ++ src).take
      src.length).length = src.length := by
    simp
  have hsil := processBlocks_silence f.input_fmt f.volume_ramp_time
    f.silence_add_time hr hf
    (splitBlocks (f.input_fmt.frameSize * f.ramp_block_size)
      ((f.delay_buf.drop f.last_delay_buf_size ++ src).take src.length))
    f.state f.cur_time f.pv_volume hst
    (splitBlocks_mem_ne_nil _ _)
    (by rw [splitBlocks_flatten _ hbs, hdlen]; exact hbound)
  rw [splitBlocks_flatten _ hbs, hdlen] at hsil
  simp [VolumeRampFilter.FilterPCM, consumePending_eq, hnf]
  exact hsil

/-! ### Claim theorems -/

/-- C2: Length preservation — for every input block, `FilterPCM` returns an
output of exactly the same byte length as the input, in every state; the
hypothesis only excludes the degenerate zero sub-block size (a valid format
has a positive frame size and the configured block size is never zero), at
which the original loop would not terminate at all. -/
theorem claim_C2_length_preservation (f : VolumeRampFilter) (src : List ℤ)
    (hbs : f.input_fmt.frameSize * f.ramp_block_size ≠ 0) :
    ((f.FilterPCM src).2).length = src.length := by
  have hbs' : f.consumePending.input_fmt.frameSize
      * f.consumePending.ramp_block_size ≠ 0 := by
    rw [consumePending_eq]
    exact hbs
  by_cases hst : f.consumePending.state = VolumeRampState.Final
  · simp [VolumeRampFilter.FilterPCM, hst]
  · simp [VolumeRampFilter.FilterPCM, hst, processBlocks_out_length,
      splitBlocks_flatten _ hbs']

/-- C2 witness. -/
theorem claim_C2_length_preservation_witness :
    ((1 : ℕ) * 1 ≠ 0) ∧
    (((mkVolumeRampFilter ⟨2, 1, 7⟩ 1 1 1).FilterPCM [10, 20, 30]).2).length = 3 :=
  ⟨by decide,
   claim_C2_length_preservation (mkVolumeRampFilter ⟨2, 1, 7⟩ 1 1 1)
     [10, 20, 30] (by decide)⟩

/-- C8: Reset frame effect — `Reset` zeroes the accumulator and sets the
state to `Silence`, and changes nothing else: the delay-line contents and
the pending-consume bookkeeping are untouched. -/
theorem claim_C8_reset_frame_effect (f : VolumeRampFilter) :
    f.Reset = { f with cur_time := 0, state := VolumeRampState.Silence } ∧
    (f.Reset).cur_time = 0 ∧
    (f.Reset).state = VolumeRampState.Silence ∧
    (f.Reset).delay_buf = f.delay_buf ∧
    (f.Reset).last_delay_buf_size = f.last_delay_buf_size ∧
    (f.Reset).pv_volume = f.pv_volume ∧
    (f.Reset).volume_ramp_time = f.volume_ramp_time ∧
    (f.Reset).silence_add_time = f.silence_add_time ∧
    (f.Reset).ramp_block_size = f.ramp_block_size ∧
    (f.Reset).input_fmt = f.input_fmt :=
  ⟨rfl, rfl, rfl, rfl, rfl, rfl, rfl, rfl, rfl, rfl⟩

/-- C10: Empty-input edge case — `FilterPCM` on an empty block returns an
empty output and leaves the state, the accumulator and the delay line
unchanged except that the previously returned bytes are consumed. -/
theorem claim_C10_empty_input (f : VolumeRampFilter) :
    f.FilterPCM [] =
      ({ f with delay_buf := f.delay_buf.drop f.last_delay_buf_size
                last_delay_buf_size := 0 }, []) ∧
    (f.FilterPCM []).1.state = f.state ∧
    (f.FilterPCM []).1.cur_time = f.cur_time ∧
    (f.FilterPCM []).1.pv_volume = f.pv_volume := by
  have key : f.FilterPCM [] =
      ({ f with delay_buf := f.delay_buf.drop f.last_delay_buf_size
                last_delay_buf_size := 0 }, []) := by
    by_cases hst : f.consumePending.state = VolumeRampState.Final
    · simp [VolumeRampFilter.FilterPCM, hst, consumePending_eq] at hst ⊢
      simp [hst]
    · simp [VolumeRampFilter.FilterPCM, hst, consumePending_eq,
        splitBlocks_nil, processBlocks] at hst ⊢
  refine ⟨key, ?_, ?_, ?_⟩ <;> rw [key]

/-- C7: Trigger idempotence and effect — `trigger` zeroes the accumulator
and sets the state to `Silence` (touching nothing else, so any in-progress
ramp is discarded and already-returned output is unaffected); calling it
twice equals calling it once; and the `FilterPCM` call after a trigger
emits silence for the delayed chunk (not mid-ramp gain), as long as the
chunk's duration does not exceed the full silence window `rt + sat`. -/
theorem claim_C7_trigger_idempotent (f : VolumeRampFilter) (src : List ℤ)
    (hr : 0 < f.input_fmt.sampleRate) (hf : 0 < f.input_fmt.frameSize)
    (hb : 0 < f.ramp_block_size)
    (hbound : f.input_fmt.SizeToTime src.length
      ≤ f.volume_ramp_time + f.silence_add_time) :
    f.trigger = { f with cur_time := 0, state := VolumeRampState.Silence } ∧
    f.trigger.trigger = f.trigger ∧
    (f.trigger.FilterPCM src).2 = PcmSilence f.input_fmt src.length := by
  refine ⟨rfl, rfl, ?_⟩
  have h := FilterPCM_silence f.trigger src hr hf hb (Or.inl rfl)
    (by simpa [VolumeRampFilter.trigger] using hbound)
  simpa [VolumeRampFilter.trigger] using h

/-- C7 witness. -/
theorem claim_C7_trigger_idempotent_witness :
    ((mkVolumeRampFilter ⟨2, 1, 7⟩ 1 1 1).trigger.FilterPCM [10, 20]).2
      = PcmSilence ⟨2, 1, 7⟩ 2 :=
  (claim_C7_trigger_idempotent (mkVolumeRampFilter ⟨2, 1, 7⟩ 1 1 1) [10, 20]
    (by decide) (by decide) (by decide)
    (by norm_num [mkVolumeRampFilter, AudioFormat.SizeToTime])).2.2

/-- C9: Factory configuration policy — construction of
`PreparedVolumeRampFilter` is total (it always succeeds), and each of the
three values falls back to its default (0.1 s, 0.1 s, 64 frames) when the
key is absent or unparsable (`none`: the C parse yields 0) or parses to
zero, and takes the configured value whenever it is non-zero. -/
theorem claim_C9_config_policy (cfg : ConfigBlock) :
    ((cfg.ramp_seconds = none →
        (mkPreparedVolumeRampFilter cfg).volume_ramp_time = 1 / 10) ∧
     (cfg.ramp_seconds = some 0 →
        (mkPreparedVolumeRampFilter cfg).volume_ramp_time = 1 / 10) ∧
     (∀ v : ℚ, cfg.ramp_seconds = some v → v ≠ 0 →
        (mkPreparedVolumeRampFilter cfg).volume_ramp_time = v)) ∧
    ((cfg.silence_seconds = none →
        (mkPreparedVolumeRampFilter cfg).silence_add_time = 1 / 10) ∧
     (cfg.silence_seconds = some 0 →
        (mkPreparedVolumeRampFilter cfg).silence_add_time = 1 / 10) ∧
     (∀ v : ℚ, cfg.silence_seconds = some v → v ≠ 0 →
        (mkPreparedVolumeRampFilter cfg).silence_add_time = v)) ∧
    ((cfg.block_size = none →
        (mkPreparedVolumeRampFilter cfg).ramp_block_size = 64) ∧
     (cfg.block_size = some 0 →
        (mkPreparedVolumeRampFilter cfg).ramp_block_size = 64) ∧
     (∀ v : ℕ, cfg.block_size = some v → v ≠ 0 →
        (mkPreparedVolumeRampFilter cfg).ramp_block_size = v)) := by
  obtain ⟨r, s, b⟩ := cfg
  refine ⟨⟨?_, ?_, ?_⟩, ⟨?_, ?_, ?_⟩, ⟨?_, ?_, ?_⟩⟩ <;>
    first
    | (intro h; subst h; simp [mkPreparedVolumeRampFilter])
    | (intro v h hv; subst h; simp [mkPreparedVolumeRampFilter, hv])

/-- C9 witness. -/
theorem claim_C9_config_policy_witness :
    (mkPreparedVolumeRampFilter ⟨none, some 0, some 7⟩).volume_ramp_time = 1 / 10 ∧
    (mkPreparedVolumeRampFilter ⟨none, some 0, some 7⟩).silence_add_time = 1 / 10 ∧
    (mkPreparedVolumeRampFilter ⟨none, some 0, some 7⟩).ramp_block_size = 7 :=
  ⟨(claim_C9_config_policy ⟨none, some 0, some 7⟩).1.1 rfl,
   (claim_C9_config_policy ⟨none, some 0, some 7⟩).2.1.2.1 rfl,
   (claim_C9_config_policy ⟨none, some 0, some 7⟩).2.2.2.2 7 rfl (by decide)⟩

/-- C5: Silence-state step — in `Silence` or `RampDown`, forward processing
overwrites the delayed sub-block with the format's canonical silence
pattern and advances the accumulator by the sub-block's duration; when the
accumulated time reaches `volume_ramp_time + silence_add_time`, the
accumulator resets to zero and the state becomes `RampUp`, and otherwise
the state is unchanged. -/
theorem claim_C5_silence_step (fmt : AudioFormat) (rt sat t : ℚ)
    (st : VolumeRampState) (cur : List ℤ)
    (hst : st = VolumeRampState.Silence ∨ st = VolumeRampState.RampDown) :
    (subBlockStep fmt rt sat st t cur).2.2.2 = PcmSilence fmt cur.length ∧
    (rt + sat ≤ t + fmt.SizeToTime cur.length →
      (subBlockStep fmt rt sat st t cur).1 = VolumeRampState.RampUp ∧
      (subBlockStep fmt rt sat st t cur).2.1 = 0) ∧
    (¬ rt + sat ≤ t + fmt.SizeToTime cur.length →
      (subBlockStep fmt rt sat st t cur).1 = st ∧
      (subBlockStep fmt rt sat st t cur).2.1 = t + fmt.SizeToTime cur.length) := by
  rcases hst with hst | hst <;> subst hst <;>
    refine ⟨by simp [subBlockStep], fun h => ?_, fun h => ?_⟩ <;>
    simp [subBlockStep, ge_iff_le, h]

/-- C5 witness. -/
theorem claim_C5_silence_step_witness :
    (subBlockStep ⟨2, 1, 7⟩ 1 1 VolumeRampState.Silence 0 [5]).2.2.2
      = PcmSilence ⟨2, 1, 7⟩ 1 ∧
    (subBlockStep ⟨2, 1, 7⟩ 1 1 VolumeRampState.Silence 0 [5]).1
      = VolumeRampState.Silence ∧
    (subBlockStep ⟨2, 1, 7⟩ 1 1 VolumeRampState.Silence 0 [5]).2.1 = 1 / 2 := by
  have h := claim_C5_silence_step ⟨2, 1, 7⟩ 1 1 0 VolumeRampState.Silence [5]
    (Or.inl rfl)
  have hlt : ¬ (1 : ℚ) + 1 ≤ 0 + AudioFormat.SizeToTime ⟨2, 1, 7⟩ [5].length := by
    norm_num [AudioFormat.SizeToTime]
  refine ⟨h.1, (h.2.2 hlt).1, ?_⟩
  rw [(h.2.2 hlt).2]
  norm_num [AudioFormat.SizeToTime]

/-- C6: Flush fade-down — a `Flush` entered in `RampUp` behaves exactly as
if the accumulator were first replaced by `ramp_time − accumulated` and the
state set to `RampDown`; a `Flush` in `RampDown` appends one silence
sub-block of `ramp_block_size` frames to the delay line, returns the
delayed chunk of that size scaled by the clamped gain
`1 − accumulated/ramp_time`, advances the accumulator by the sub-block's
duration, transitions to `Silence` (resetting the accumulator) exactly when
it reaches `ramp_time`, and the returned chunk is non-empty. -/
theorem claim_C6_flush_fade_down (f : VolumeRampFilter)
    (hf : 0 < f.input_fmt.frameSize) (hb : 0 < f.ramp_block_size) :
    (f.state = VolumeRampState.RampUp →
      f.Flush = ({ f with
          state := VolumeRampState.RampDown
          cur_time := f.volume_ramp_time - f.cur_time } : VolumeRampFilter).Flush) ∧
    (f.state = VolumeRampState.RampDown →
      (f.Flush).2 = PcmVolumeApply (rampDownVolume f.volume_ramp_time f.cur_time)
        ((f.delay_buf.drop f.last_delay_buf_size ++
          PcmSilence f.input_fmt (f.ramp_block_size * f.input_fmt.frameSize)).take
          (f.ramp_block_size * f.input_fmt.frameSize)) ∧
      (f.Flush).2 ≠ [] ∧
      (f.Flush).1.delay_buf = f.delay_buf.drop f.last_delay_buf_size ++
        PcmSilence f.input_fmt (f.ramp_block_size * f.input_fmt.frameSize) ∧
      (f.Flush).1.last_delay_buf_size
        = f.ramp_block_size * f.input_fmt.frameSize ∧
      (f.volume_ramp_time ≤ f.cur_time +
          f.input_fmt.SizeToTime (f.ramp_block_size * f.input_fmt.frameSize) →
        (f.Flush).1.state = VolumeRampState.Silence ∧
        (f.Flush).1.cur_time = 0) ∧
      (¬ f.volume_ramp_time ≤ f.cur_time +
          f.input_fmt.SizeToTime (f.ramp_block_size * f.input_fmt.frameSize) →
        (f.Flush).1.state = VolumeRampState.RampDown ∧
        (f.Flush).1.cur_time = f.cur_time +
          f.input_fmt.SizeToTime (f.ramp_block_size * f.input_fmt.frameSize))) := by
  constructor
  · intro hst
    simp [VolumeRampFilter.Flush, consumePending_eq, hst]
  · intro hst
    have hcbs : 0 < f.ramp_block_size * f.input_fmt.frameSize :=
      Nat.mul_pos hb hf
    have hout : ((f.delay_buf.drop f.last_delay_buf_size ++
        PcmSilence f.input_fmt (f.ramp_block_size * f.input_fmt.frameSize)).take
        (f.ramp_block_size * f.input_fmt.frameSize)).length
        = f.ramp_block_size * f.input_fmt.frameSize := by
      simp [PcmSilence]
    refine ⟨?_, ?_, ?_, ?_, ?_, ?_⟩ <;>
      simp only [VolumeRampFilter.Flush, consumePending_eq, hst] <;>
      try simp [ge_iff_le]
    · intro hcontra
      have := congrArg List.length hcontra
      simp only [PcmVolumeApply, List.length_map, hout, List.length_nil] at this
      omega
    · intro h
      simp [h]
    · intro h
      constructor <;> split <;>
        first
        | rfl
        | (exfalso; linarith)

/-- C6 witness. -/
theorem claim_C6_flush_fade_down_witness :
    (({ mkVolumeRampFilter ⟨2, 1, 7⟩ 1 1 1 with
        state := VolumeRampState.RampDown } : VolumeRampFilter).Flush).2
      = PcmVolumeApply (rampDownVolume 1 0) [(7 : ℤ)] := by
  have h := (claim_C6_flush_fade_down
    ({ mkVolumeRampFilter ⟨2, 1, 7⟩ 1 1 1 with
        state := VolumeRampState.RampDown } : VolumeRampFilter)
    (by decide) (by decide)).2 rfl
  have ht : AudioFormat.TimeToSize ⟨2, 1, 7⟩ 1 = 2 := by
    norm_num [AudioFormat.TimeToSize]
    rfl
  rw [h.1]
  simp [mkVolumeRampFilter, PcmSilence, ht, List.replicate_succ]

theorem runProcess_nil (f : VolumeRampFilter) : runProcess f [] = (f, []) := rfl

theorem runProcess_cons (f : VolumeRampFilter) (b : List ℤ)
    (bs : List (List ℤ)) :
    runProcess f (b :: bs) =
      ((runProcess (f.FilterPCM b).1 bs).1,
       (f.FilterPCM b).2 :: (runProcess (f.FilterPCM b).1 bs).2) := rfl

/-- The `Final` fast path of `FilterPCM` (lines 79–89), closed form. -/
theorem FilterPCM_final (f : VolumeRampFilter) (src : List ℤ)
    (hst : f.state = VolumeRampState.Final) :
    f.FilterPCM src =
      ({ f with delay_buf := f.delay_buf.drop f.last_delay_buf_size ++ src
                last_delay_buf_size := src.length },
       (f.delay_buf.drop f.last_delay_buf_size ++ src).take src.length) := by
  simp [VolumeRampFilter.FilterPCM, consumePending_eq, hst]

/-- A run of `FilterPCM` calls in the `Final` state concatenates, over all
calls, to the prefix of (pending-adjusted delay line ++ all inputs) of the
inputs' total length; every call returns exactly its input's length, and
the state stays `Final`. -/
theorem runProcess_final (f : VolumeRampFilter) (blocks : List (List ℤ))
    (hst : f.state = VolumeRampState.Final) :
    ((runProcess f blocks).2).flatten
      = (f.delay_buf.drop f.last_delay_buf_size ++ blocks.flatten).take
          blocks.flatten.length ∧
    (runProcess f blocks).2.map List.length = blocks.map List.length ∧
    (runProcess f blocks).1.state = VolumeRampState.Final := by
  induction blocks generalizing f with
  | nil => simpa [runProcess_nil] using hst
  | cons b bs ih =>
    rw [runProcess_cons, FilterPCM_final f b hst]
    have ihb := ih ({ f with
      delay_buf := f.delay_buf.drop f.last_delay_buf_size ++ b
      last_delay_buf_size := b.length } : VolumeRampFilter) hst
    simp only at ihb ⊢
    refine ⟨?_, ?_, ihb.2.2⟩
    · simp only [List.flatten_cons]
      rw [ihb.1]
      set D := f.delay_buf.drop f.last_delay_buf_size with hD
      have hle : b.length ≤ (D ++ b).length := by simp
      have hlen : (b ++ bs.flatten).length = b.length + bs.flatten.length := by
        simp
      calc (D ++ b).take b.length ++
            ((D ++ b).drop b.length ++ bs.flatten).take bs.flatten.length
          = ((D ++ b) ++ bs.flatten).take b.length ++
            (((D ++ b) ++ bs.flatten).drop b.length).take bs.flatten.length := by
            rw [List.take_append_of_le_length hle,
              List.drop_append_of_le_length hle]
        _ = ((D ++ b) ++ bs.flatten).take (b.length + bs.flatten.length) := by
            rw [List.take_add]
        _ = (D ++ (b ++ bs.flatten)).take ((b ++ bs.flatten).length) := by
            rw [List.append_assoc, hlen]
    · simp [ihb.2.1]

/-- C1: Fixed delay — starting from the constructed filter (whose delay
line is pre-filled with `TimeToSize ramp_time` bytes of silence) put into
the `Final` state, the outputs of any sequence of `FilterPCM` calls
concatenate to exactly the silence pre-fill followed by the concatenated
inputs, truncated to the inputs' total length: every output byte at global
position `k` is the input byte appended one delay-line-capacity
(`ramp_time` worth of bytes) earlier, with no sample dropped, duplicated
or reordered; each call returns exactly its input's length and the state
remains `Final`. -/
theorem claim_C1_fixed_delay (fmt : AudioFormat) (rt sat : ℚ) (bs : ℕ)
    (blocks : List (List ℤ)) :
    ((runProcess ({ mkVolumeRampFilter fmt rt sat bs with
        state := VolumeRampState.Final } : VolumeRampFilter) blocks).2).flatten
      = (PcmSilence fmt (fmt.TimeToSize rt) ++ blocks.flatten).take
          blocks.flatten.length ∧
    (runProcess ({ mkVolumeRampFilter fmt rt sat bs with
        state := VolumeRampState.Final } : VolumeRampFilter) blocks).2.map
        List.length = blocks.map List.length ∧
    (runProcess ({ mkVolumeRampFilter fmt rt sat bs with
        state := VolumeRampState.Final } : VolumeRampFilter) blocks).1.state
      = VolumeRampState.Final ∧
    (PcmSilence fmt (fmt.TimeToSize rt)).length = fmt.TimeToSize rt := by
  have h := runProcess_final ({ mkVolumeRampFilter fmt rt sat bs with
    state := VolumeRampState.Final } : VolumeRampFilter) blocks rfl
  simp only [mkVolumeRampFilter, List.drop_zero] at h
  exact ⟨h.1, h.2.1, h.2.2, by simp [PcmSilence]⟩

theorem rampUpVolume_mono (rt t t2 : ℚ) (hrt : 0 < rt) (_ht : 0 ≤ t)
    (htt : t ≤ t2) : rampUpVolume rt t ≤ rampUpVolume rt t2 := by
  unfold rampUpVolume
  have h1 : t / rt ≤ t2 / rt := (div_le_div_iff_of_pos_right hrt).mpr htt
  have h2 : t / rt * (PCM_VOLUME_1 : ℚ) ≤ t2 / rt * (PCM_VOLUME_1 : ℚ) :=
    mul_le_mul_of_nonneg_right h1 (by norm_num [PCM_VOLUME_1])
  exact min_le_min (Int.toNat_le_toNat (Int.floor_le_floor h2)) le_rfl

theorem rampUpVolume_full (rt t : ℚ) (hrt : 0 < rt) (hle : rt ≤ t) :
    rampUpVolume rt t = PCM_VOLUME_1 := by
  unfold rampUpVolume
  have h1 : (1 : ℚ) ≤ t / rt := (one_le_div hrt).mpr hle
  have h2 : ((PCM_VOLUME_1 : ℚ)) ≤ t / rt * (PCM_VOLUME_1 : ℚ) := by
    have := mul_le_mul_of_nonneg_right h1
      (show (0 : ℚ) ≤ (PCM_VOLUME_1 : ℚ) by norm_num [PCM_VOLUME_1])
    simpa using this
  have h3 : ((PCM_VOLUME_1 : ℤ)) ≤ ⌊t / rt * (PCM_VOLUME_1 : ℚ)⌋ :=
    Int.le_floor.mpr (by exact_mod_cast h2)
  have h4 : PCM_VOLUME_1 ≤ (⌊t / rt * (PCM_VOLUME_1 : ℚ)⌋).toNat := by
    have := Int.toNat_le_toNat h3
    simpa using this
  exact min_eq_right h4

/-- Once `Final`, the sub-block loop passes everything through untouched:
no state, accumulator or volume change, and no `SetVolume` calls. -/
theorem processBlocks_final_run (fmt : AudioFormat) (rt sat : ℚ)
    (blocks : List (List ℤ)) : ∀ t pv,
    processBlocks fmt rt sat VolumeRampState.Final t pv blocks
      = (VolumeRampState.Final, t, pv, blocks.flatten, []) := by
  induction blocks with
  | nil => intro t pv; simp [processBlocks_nil]
  | cons cur rest ih =>
    intro t pv
    rw [processBlocks_cons]
    simp [subBlockStep, ih]

/-- Invariants of the sub-block loop started in `RampUp` with a
non-negative accumulator: it ends in `RampUp` or `Final`; the volumes it
sets are non-decreasing, all at least the entry gain; and if it is still
ramping at the end, the accumulator has not decreased and bounds all the
volumes set so far. -/
theorem processBlocks_rampUp (fmt : AudioFormat) (rt sat : ℚ)
    (hrt : 0 < rt) (blocks : List (List ℤ)) : ∀ t pv, 0 ≤ t →
    ((processBlocks fmt rt sat VolumeRampState.RampUp t pv blocks).1
        = VolumeRampState.RampUp ∨
     (processBlocks fmt rt sat VolumeRampState.RampUp t pv blocks).1
        = VolumeRampState.Final) ∧
    List.Chain' (· ≤ ·)
      ((processBlocks fmt rt sat VolumeRampState.RampUp t pv blocks).2.2.2.2) ∧
    (∀ g ∈ (processBlocks fmt rt sat VolumeRampState.RampUp t pv blocks).2.2.2.2,
      rampUpVolume rt t ≤ g) ∧
    ((processBlocks fmt rt sat VolumeRampState.RampUp t pv blocks).1
        = VolumeRampState.RampUp →
      0 ≤ (processBlocks fmt rt sat VolumeRampState.RampUp t pv blocks).2.1 ∧
      t ≤ (processBlocks fmt rt sat VolumeRampState.RampUp t pv blocks).2.1 ∧
      ∀ g ∈ (processBlocks fmt rt sat VolumeRampState.RampUp t pv blocks).2.2.2.2,
        g ≤ rampUpVolume rt
          (processBlocks fmt rt sat VolumeRampState.RampUp t pv blocks).2.1) := by
  induction blocks with
  | nil =>
    intro t pv ht
    simp only [processBlocks_nil]
    exact ⟨by simp, by simp, by simp, fun _ => ⟨ht, le_rfl, by simp⟩⟩
  | cons cur rest ih =>
    intro t pv ht
    have hdur : 0 ≤ fmt.SizeToTime cur.length := SizeToTime_nonneg fmt _
    have ht1 : 0 ≤ t + fmt.SizeToTime cur.length := add_nonneg ht hdur
    have htle : t ≤ t + fmt.SizeToTime cur.length := le_add_of_nonneg_right hdur
    have hmono := rampUpVolume_mono rt t (t + fmt.SizeToTime cur.length) hrt ht htle
    rw [processBlocks_cons]
    by_cases hc : t + fmt.SizeToTime cur.length ≥ rt
    · simp only [subBlockStep, if_pos hc, Option.getD_some,
        processBlocks_final_run, Option.toList_some]
      refine ⟨by simp, by simp, ?_, by simp⟩
      intro g hg
      simp only [List.append_nil, List.mem_singleton] at hg
      subst hg
      exact le_rfl
    · simp only [subBlockStep, if_neg hc, Option.getD_some, Option.toList_some]
      obtain ⟨ih1, ih2, ih3, ih4⟩ :=
        ih (t + fmt.SizeToTime cur.length) (rampUpVolume rt t) ht1
      refine ⟨ih1, ?_, ?_, ?_⟩
      · rw [List.singleton_append, List.chain'_cons']
        refine ⟨fun y hy => ?_, ih2⟩
        exact le_trans hmono (ih3 y (List.mem_of_mem_head? hy))
      · intro g hg
        rw [List.singleton_append, List.mem_cons] at hg
        rcases hg with hg | hg
        · subst hg; exact le_rfl
        · exact le_trans hmono (ih3 g hg)
      · intro hfin
        obtain ⟨h0, hle1, hub⟩ := ih4 hfin
        refine ⟨h0, le_trans htle hle1, ?_⟩
        intro g hg
        rw [List.singleton_append, List.mem_cons] at hg
        rcases hg with hg | hg
        · subst hg
          exact rampUpVolume_mono rt t _ hrt ht (le_trans htle hle1)
        · exact hub g hg

/-- A non-`Final` `FilterPCM` call is the sub-block loop `pcmLoop`: its
resulting state, accumulator and gain trace are the loop's. -/
theorem FilterPCM_loop (f : VolumeRampFilter) (src : List ℤ)
    (h : ¬ f.state = VolumeRampState.Final) :
    (f.FilterPCM src).1.state = (pcmLoop f src).1 ∧
    (f.FilterPCM src).1.cur_time = (pcmLoop f src).2.1 ∧
    f.FilterGains src = (pcmLoop f src).2.2.2.2 := by
  refine ⟨?_, ?_, ?_⟩ <;>
    simp [VolumeRampFilter.FilterPCM, VolumeRampFilter.FilterGains,
      pcmLoop, consumePending_eq, h]

/-- `FilterPCM` never changes the configuration fields. -/
theorem FilterPCM_params (f : VolumeRampFilter) (src : List ℤ) :
    (f.FilterPCM src).1.volume_ramp_time = f.volume_ramp_time ∧
    (f.FilterPCM src).1.silence_add_time = f.silence_add_time ∧
    (f.FilterPCM src).1.ramp_block_size = f.ramp_block_size ∧
    (f.FilterPCM src).1.input_fmt = f.input_fmt := by
  by_cases h : f.state = VolumeRampState.Final <;>
    refine ⟨?_, ?_, ?_, ?_⟩ <;>
    simp [VolumeRampFilter.FilterPCM, consumePending_eq, h]

/-- A `FilterPCM` call in the `Final` state sets no volumes and stays
`Final` with the accumulator untouched. -/
theorem FilterPCM_final_gains (f : VolumeRampFilter) (src : List ℤ)
    (h : f.state = VolumeRampState.Final) :
    f.FilterGains src = [] ∧
    (f.FilterPCM src).1.state = VolumeRampState.Final ∧
    (f.FilterPCM src).1.cur_time = f.cur_time := by
  refine ⟨?_, ?_, ?_⟩ <;>
    simp [VolumeRampFilter.FilterGains, VolumeRampFilter.FilterPCM,
      consumePending_eq, h]

/-- Over a whole run of `FilterPCM` calls: a filter in `Final` sets no
volumes at all, and a filter in `RampUp` with a non-negative accumulator
sets a non-decreasing sequence of volumes, all at least the entry gain. -/
theorem runGains_invariant (blocks : List (List ℤ)) :
    ∀ f : VolumeRampFilter, 0 < f.volume_ramp_time →
      (f.state = VolumeRampState.Final → runGains f blocks = []) ∧
      (f.state = VolumeRampState.RampUp → 0 ≤ f.cur_time →
        List.Chain' (· ≤ ·) (runGains f blocks) ∧
        (∀ g ∈ runGains f blocks,
          rampUpVolume f.volume_ramp_time f.cur_time ≤ g)) := by
  induction blocks with
  | nil =>
    intro f hrt
    exact ⟨fun _ => rfl, fun _ _ => ⟨List.chain'_nil, by simp [runGains]⟩⟩
  | cons b bs ih =>
    intro f hrt
    constructor
    · intro hst
      obtain ⟨hg, hst2, _⟩ := FilterPCM_final_gains f b hst
      have hrt2 : 0 < (f.FilterPCM b).1.volume_ramp_time := by
        rw [(FilterPCM_params f b).1]; exact hrt
      have := (ih (f.FilterPCM b).1 hrt2).1 hst2
      simp [runGains, hg, this]
    · intro hst ht
      have hnf : ¬ f.state = VolumeRampState.Final := by simp [hst]
      obtain ⟨hs, hc, hg⟩ := FilterPCM_loop f b hnf
      have hrt2 : 0 < (f.FilterPCM b).1.volume_ramp_time := by
        rw [(FilterPCM_params f b).1]; exact hrt
      have hloop := processBlocks_rampUp f.input_fmt f.volume_ramp_time
        f.silence_add_time hrt
        (splitBlocks (f.input_fmt.frameSize * f.ramp_block_size)
          ((f.delay_buf.drop f.last_delay_buf_size ++ b).take b.length))
        f.cur_time f.pv_volume ht
      have hploop : pcmLoop f b = processBlocks f.input_fmt f.volume_ramp_time
          f.silence_add_time VolumeRampState.RampUp f.cur_time f.pv_volume
          (splitBlocks (f.input_fmt.frameSize * f.ramp_block_size)
            ((f.delay_buf.drop f.last_delay_buf_size ++ b).take b.length)) := by
        rw [pcmLoop, hst]
      rw [← hploop] at hloop
      obtain ⟨hend, hchain1, hlow1, hup⟩ := hloop
      have hrun : runGains f (b :: bs)
          = f.FilterGains b ++ runGains (f.FilterPCM b).1 bs := rfl
      rcases hend with hend | hend
      · -- call ends still in RampUp
        obtain ⟨h0, hincr, hub⟩ := hup hend
        have hih := (ih (f.FilterPCM b).1 hrt2).2 (by rw [hs]; exact hend)
          (by rw [hc]; exact h0)
        rw [(FilterPCM_params f b).1, hc] at hih
        refine ⟨?_, ?_⟩
        · rw [hrun, hg]
          refine List.Chain'.append hchain1 hih.1 ?_
          intro x hx y hy
          have hx2 := hub x (List.mem_of_mem_getLast? hx)
          have hy2 := hih.2 y (List.mem_of_mem_head? hy)
          exact le_trans hx2 hy2
        · rw [hrun, hg]
          intro g hgmem
          rcases List.mem_append.mp hgmem with hm | hm
          · exact hlow1 g hm
          · have := hih.2 g hm
            exact le_trans (rampUpVolume_mono f.volume_ramp_time f.cur_time
              (pcmLoop f b).2.1 hrt ht hincr) this
      · -- call ends in Final
        have hih := (ih (f.FilterPCM b).1 hrt2).1 (by rw [hs]; exact hend)
        rw [hrun, hg, hih]
        exact ⟨by simpa using hchain1, by simpa using hlow1⟩

/-- C4: Ramp-up monotonicity — during `RampUp` the gain applied to a
sub-block is `accumulated/ramp_time` scaled to `PCM_VOLUME_1` and clamped
to full scale (`rampUpVolume`); this formula is non-decreasing in the
accumulator and reaches full scale at (hence also at or before)
accumulated time = `ramp_time`; a sub-block step in `RampUp` applies
exactly this gain, and when the accumulator crosses `ramp_time` it resets
to zero and the state becomes `Final` (otherwise it just advances); and
over any sequence of `FilterPCM` calls started in `RampUp`, the volumes
set (within and across calls) form a non-decreasing sequence. -/
theorem claim_C4_rampup_monotonicity (fmt : AudioFormat) (rt sat t t2 : ℚ)
    (cur : List ℤ) (f : VolumeRampFilter) (blocks : List (List ℤ))
    (hrt : 0 < rt) (ht : 0 ≤ t) :
    (t ≤ t2 → rampUpVolume rt t ≤ rampUpVolume rt t2) ∧
    (rt ≤ t2 → rampUpVolume rt t2 = PCM_VOLUME_1) ∧
    ((subBlockStep fmt rt sat VolumeRampState.RampUp t cur).2.2.1
        = some (rampUpVolume rt t) ∧
     (subBlockStep fmt rt sat VolumeRampState.RampUp t cur).2.2.2
        = PcmVolumeApply (rampUpVolume rt t) cur ∧
     (rt ≤ t + fmt.SizeToTime cur.length →
       (subBlockStep fmt rt sat VolumeRampState.RampUp t cur).1
          = VolumeRampState.Final ∧
       (subBlockStep fmt rt sat VolumeRampState.RampUp t cur).2.1 = 0) ∧
     (¬ rt ≤ t + fmt.SizeToTime cur.length →
       (subBlockStep fmt rt sat VolumeRampState.RampUp t cur).1
          = VolumeRampState.RampUp ∧
       (subBlockStep fmt rt sat VolumeRampState.RampUp t cur).2.1
          = t + fmt.SizeToTime cur.length)) ∧
    (f.state = VolumeRampState.RampUp → 0 ≤ f.cur_time →
      f.volume_ramp_time = rt →
      List.Chain' (· ≤ ·) (runGains f blocks)) := by
  refine ⟨fun htt => rampUpVolume_mono rt t t2 hrt ht htt,
    fun hfull => rampUpVolume_full rt t2 hrt hfull, ⟨rfl, rfl, ?_, ?_⟩, ?_⟩
  · intro h
    constructor <;> simp [subBlockStep, ge_iff_le, h]
  · intro h
    constructor <;> simp [subBlockStep, ge_iff_le, h]
  · intro hst hcur hrteq
    exact ((runGains_invariant blocks f (hrteq ▸ hrt)).2 hst hcur).1

/-- C4 witness. -/
theorem claim_C4_rampup_monotonicity_witness :
    rampUpVolume 1 0 ≤ rampUpVolume 1 (1 / 2) ∧
    rampUpVolume 1 1 = PCM_VOLUME_1 := by
  constructor
  · exact (claim_C4_rampup_monotonicity ⟨2, 1, 7⟩ 1 1 0 (1 / 2) []
      (mkVolumeRampFilter ⟨2, 1, 7⟩ 1 1 1) [] (by norm_num) le_rfl).1
      (by norm_num)
  · exact (claim_C4_rampup_monotonicity ⟨2, 1, 7⟩ 1 1 0 1 []
      (mkVolumeRampFilter ⟨2, 1, 7⟩ 1 1 1) [] (by norm_num) le_rfl).2.1
      (by norm_num)

/-! ### Flush iteration lemmas (for the termination claim) -/

theorem Flush_state_silence (f : VolumeRampFilter)
    (h : f.state = VolumeRampState.Silence) :
    (f.Flush).1.state = VolumeRampState.Silence ∧ (f.Flush).2 = [] := by
  constructor <;> simp [VolumeRampFilter.Flush, consumePending_eq, h]

theorem Flush_params (f : VolumeRampFilter) :
    (f.Flush).1.volume_ramp_time = f.volume_ramp_time ∧
    (f.Flush).1.silence_add_time = f.silence_add_time ∧
    (f.Flush).1.ramp_block_size = f.ramp_block_size ∧
    (f.Flush).1.input_fmt = f.input_fmt := by
  cases hst : f.state <;> refine ⟨?_, ?_, ?_, ?_⟩ <;>
    simp [VolumeRampFilter.Flush, consumePending_eq, hst]

theorem Flush_out_length (f : VolumeRampFilter)
    (h : ¬ f.state = VolumeRampState.Silence) :
    ((f.Flush).2).length = f.ramp_block_size * f.input_fmt.frameSize := by
  cases hst : f.state with
  | Silence => exact absurd hst h
  | _ =>
    simp [VolumeRampFilter.Flush, consumePending_eq, hst, PcmVolumeApply,
      PcmSilence]

/-- The state/accumulator effect of one non-`Silence` flush call: the
effective accumulator (mirrored for `RampUp`) advances by one block's
duration; crossing `ramp_time` goes to `Silence`, otherwise to `RampDown`. -/
theorem Flush_state_step (f : VolumeRampFilter)
    (h : ¬ f.state = VolumeRampState.Silence) :
    (f.volume_ramp_time ≤
        (if f.state = VolumeRampState.RampUp
         then f.volume_ramp_time - f.cur_time else f.cur_time) +
        f.input_fmt.SizeToTime (f.ramp_block_size * f.input_fmt.frameSize) →
      (f.Flush).1.state = VolumeRampState.Silence ∧
      (f.Flush).1.cur_time = 0) ∧
    (¬ f.volume_ramp_time ≤
        (if f.state = VolumeRampState.RampUp
         then f.volume_ramp_time - f.cur_time else f.cur_time) +
        f.input_fmt.SizeToTime (f.ramp_block_size * f.input_fmt.frameSize) →
      (f.Flush).1.state = VolumeRampState.RampDown ∧
      (f.Flush).1.cur_time =
        (if f.state = VolumeRampState.RampUp
         then f.volume_ramp_time - f.cur_time else f.cur_time) +
        f.input_fmt.SizeToTime (f.ramp_block_size * f.input_fmt.frameSize)) := by
  cases hst : f.state with
  | Silence => exact absurd hst h
  | RampDown =>
    constructor
    · intro hth
      rw [if_neg (by simp [hst])] at hth
      constructor <;>
        simp [VolumeRampFilter.Flush, consumePending_eq, hst, ge_iff_le, hth]
    · intro hth
      rw [if_neg (by simp [hst])] at hth
      constructor <;>
        simp [VolumeRampFilter.Flush, consumePending_eq, hst, ge_iff_le, hth]
  | RampUp =>
    constructor
    · intro hth
      rw [if_pos (by simp [hst])] at hth
      constructor <;>
        simp [VolumeRampFilter.Flush, consumePending_eq, hst, ge_iff_le, hth]
    · intro hth
      rw [if_pos (by simp [hst])] at hth
      constructor <;>
        simp [VolumeRampFilter.Flush, consumePending_eq, hst, ge_iff_le, hth]
  | Final =>
    constructor
    · intro hth
      rw [if_neg (by simp [hst])] at hth
      constructor <;>
        simp [VolumeRampFilter.Flush, consumePending_eq, hst, ge_iff_le, hth]
    · intro hth
      rw [if_neg (by simp [hst])] at hth
      constructor <;>
        simp [VolumeRampFilter.Flush, consumePending_eq, hst, ge_iff_le, hth]

/-- A non-`Silence` flush ends in `Silence` or `RampDown`, never ramping up. -/
theorem Flush_state_cases (f : VolumeRampFilter)
    (h : ¬ f.state = VolumeRampState.Silence) :
    (f.Flush).1.state = VolumeRampState.Silence ∨
    (f.Flush).1.state = VolumeRampState.RampDown := by
  by_cases hth : f.volume_ramp_time ≤
      (if f.state = VolumeRampState.RampUp
       then f.volume_ramp_time - f.cur_time else f.cur_time) +
      f.input_fmt.SizeToTime (f.ramp_block_size * f.input_fmt.frameSize)
  · exact Or.inl ((Flush_state_step f h).1 hth).1
  · exact Or.inr ((Flush_state_step f h).2 hth).1

/-- The accumulator after a non-`Silence` flush: either reset to zero or
advanced to the (mirrored) accumulator plus one block duration. -/
theorem Flush_cur_time_cases (f : VolumeRampFilter)
    (h : ¬ f.state = VolumeRampState.Silence) :
    (f.Flush).1.cur_time = 0 ∨
    (f.Flush).1.cur_time =
      (if f.state = VolumeRampState.RampUp
       then f.volume_ramp_time - f.cur_time else f.cur_time) +
      f.input_fmt.SizeToTime (f.ramp_block_size * f.input_fmt.frameSize) := by
  by_cases hth : f.volume_ramp_time ≤
      (if f.state = VolumeRampState.RampUp
       then f.volume_ramp_time - f.cur_time else f.cur_time) +
      f.input_fmt.SizeToTime (f.ramp_block_size * f.input_fmt.frameSize)
  · exact Or.inl ((Flush_state_step f h).1 hth).2
  · exact Or.inr ((Flush_state_step f h).2 hth).2

theorem flushN_shift (f : VolumeRampFilter) :
    ∀ k, flushN f (k + 1) = flushN ((f.Flush).1) k := by
  intro k
  induction k with
  | zero => rfl
  | succ k ih =>
    show ((flushN f (k + 1)).Flush).1 = (flushN ((f.Flush).1) (k + 1))
    rw [ih]
    rfl

theorem flushN_params (f : VolumeRampFilter) : ∀ k,
    (flushN f k).volume_ramp_time = f.volume_ramp_time ∧
    (flushN f k).silence_add_time = f.silence_add_time ∧
    (flushN f k).ramp_block_size = f.ramp_block_size ∧
    (flushN f k).input_fmt = f.input_fmt := by
  intro k
  induction k with
  | zero => exact ⟨rfl, rfl, rfl, rfl⟩
  | succ k ih =>
    have hp := Flush_params (flushN f k)
    exact ⟨hp.1.trans ih.1, hp.2.1.trans ih.2.1, hp.2.2.1.trans ih.2.2.1,
      hp.2.2.2.trans ih.2.2.2⟩

/-- Once the flush loop is in `RampDown`, it reaches `Silence` within
`n + 1` further calls as soon as `n + 1` block-durations cover the
remaining ramp time. -/
theorem flushN_silence_of_rampdown : ∀ (n : ℕ) (f : VolumeRampFilter),
    f.state = VolumeRampState.RampDown →
    f.volume_ramp_time ≤ f.cur_time + (n + 1 : ℕ) *
      f.input_fmt.SizeToTime (f.ramp_block_size * f.input_fmt.frameSize) →
    ∃ k ≤ n + 1, (flushN f k).state = VolumeRampState.Silence := by
  intro n
  induction n with
  | zero =>
    intro f hst hcover
    refine ⟨1, le_rfl, ?_⟩
    show ((flushN f 0).Flush).1.state = VolumeRampState.Silence
    have h := (Flush_state_step f (by simp [hst])).1
    rw [if_neg (by simp [hst])] at h
    exact (h (by push_cast at hcover ⊢; linarith)).1
  | succ n ih =>
    intro f hst hcover
    by_cases hth : f.volume_ramp_time ≤ f.cur_time +
        f.input_fmt.SizeToTime (f.ramp_block_size * f.input_fmt.frameSize)
    · refine ⟨1, by omega, ?_⟩
      show ((flushN f 0).Flush).1.state = VolumeRampState.Silence
      have h := (Flush_state_step f (by simp [hst])).1
      rw [if_neg (by simp [hst])] at h
      exact (h hth).1
    · have h := (Flush_state_step f (by simp [hst])).2
      rw [if_neg (by simp [hst])] at h
      obtain ⟨hst2, hcur2⟩ := h hth
      have hp := Flush_params f
      have hcover2 : ((f.Flush).1).volume_ramp_time ≤ ((f.Flush).1).cur_time +
          (n + 1 : ℕ) * ((f.Flush).1).input_fmt.SizeToTime
            (((f.Flush).1).ramp_block_size * ((f.Flush).1).input_fmt.frameSize) := by
        rw [hp.1, hp.2.2.2, hp.2.2.1, hcur2]
        push_cast at hcover ⊢
        linarith
      obtain ⟨k, hk, hsil⟩ := ih ((f.Flush).1) hst2 hcover2
      refine ⟨k + 1, by omega, ?_⟩
      rw [flushN_shift]
      exact hsil

/-- The accumulator stays within bounds through the sub-block loop: it is
non-negative, and bounded by `rt` whenever the loop ends in `RampUp`. -/
theorem processBlocks_time_invariant (fmt : AudioFormat) (rt sat : ℚ)
    (hrt : 0 ≤ rt) (blocks : List (List ℤ)) :
    ∀ st t pv, 0 ≤ t → (st = VolumeRampState.RampUp → t ≤ rt) →
    0 ≤ (processBlocks fmt rt sat st t pv blocks).2.1 ∧
    ((processBlocks fmt rt sat st t pv blocks).1 = VolumeRampState.RampUp →
      (processBlocks fmt rt sat st t pv blocks).2.1 ≤ rt) := by
  induction blocks with
  | nil =>
    intro st t pv ht hru
    simpa [processBlocks_nil] using ⟨ht, hru⟩
  | cons cur rest ih =>
    intro st t pv ht hru
    have hdur : 0 ≤ fmt.SizeToTime cur.length := SizeToTime_nonneg fmt _
    cases st with
    | Silence =>
      rw [processBlocks_cons]
      by_cases hc : t + fmt.SizeToTime cur.length ≥ rt + sat
      · simp only [subBlockStep, if_pos hc]
        exact ih _ _ _ le_rfl (fun _ => hrt)
      · simp only [subBlockStep, if_neg hc]
        exact ih _ _ _ (add_nonneg ht hdur) (by simp)
    | RampDown =>
      rw [processBlocks_cons]
      by_cases hc : t + fmt.SizeToTime cur.length ≥ rt + sat
      · simp only [subBlockStep, if_pos hc]
        exact ih _ _ _ le_rfl (fun _ => hrt)
      · simp only [subBlockStep, if_neg hc]
        exact ih _ _ _ (add_nonneg ht hdur) (by simp)
    | RampUp =>
      rw [processBlocks_cons]
      by_cases hc : t + fmt.SizeToTime cur.length ≥ rt
      · simp only [subBlockStep, if_pos hc]
        exact ih _ _ _ le_rfl (fun _ => hrt)
      · simp only [subBlockStep, if_neg hc]
        exact ih _ _ _ (add_nonneg ht hdur) (fun _ => le_of_not_le hc)
    | Final =>
      rw [processBlocks_cons]
      simp only [subBlockStep]
      exact ih _ _ _ ht (by simp)

/-- The state invariant of every reachable filter: the configuration
fields are those of construction, the accumulator is non-negative, and in
`RampUp` it never exceeds `ramp_time`. -/
theorem reachable_invariant (fmt : AudioFormat) (rt sat : ℚ) (bs : ℕ)
    (hrt : 0 ≤ rt) :
    ∀ f, Reachable fmt rt sat bs f →
      f.volume_ramp_time = rt ∧ f.silence_add_time = sat ∧
      f.ramp_block_size = bs ∧ f.input_fmt = fmt ∧
      0 ≤ f.cur_time ∧
      (f.state = VolumeRampState.RampUp → f.cur_time ≤ rt) := by
  intro f h
  induction h with
  | mk =>
    refine ⟨rfl, rfl, rfl, rfl, le_rfl, ?_⟩
    intro h
    exact absurd h (by simp [mkVolumeRampFilter])
  | trig g _ ih =>
    obtain ⟨i1, i2, i3, i4, _, _⟩ := ih
    exact ⟨i1, i2, i3, i4, le_rfl, fun h =>
      absurd h (by simp [VolumeRampFilter.trigger])⟩
  | reset g _ ih =>
    obtain ⟨i1, i2, i3, i4, _, _⟩ := ih
    exact ⟨i1, i2, i3, i4, le_rfl, fun h =>
      absurd h (by simp [VolumeRampFilter.Reset])⟩
  | process g src _ ih =>
    obtain ⟨i1, i2, i3, i4, i5, i6⟩ := ih
    have hp := FilterPCM_params g src
    refine ⟨hp.1.trans i1, hp.2.1.trans i2, hp.2.2.1.trans i3,
      hp.2.2.2.trans i4, ?_, ?_⟩ <;>
    · by_cases hfin : g.state = VolumeRampState.Final
      · obtain ⟨_, hs, hc⟩ := FilterPCM_final_gains g src hfin
        first
        | (rw [hc]; exact i5)
        | (rw [hs]; intro hcon; cases hcon)
      · obtain ⟨hs, hc, _⟩ := FilterPCM_loop g src hfin
        have hinv := processBlocks_time_invariant g.input_fmt
          g.volume_ramp_time g.silence_add_time (i1 ▸ hrt)
          (splitBlocks (g.input_fmt.frameSize * g.ramp_block_size)
            ((g.delay_buf.drop g.last_delay_buf_size ++ src).take src.length))
          g.state g.cur_time g.pv_volume i5 (fun hh => (i1 ▸ i6 hh))
        rw [pcmLoop] at hs hc
        first
        | (rw [hc]; exact hinv.1)
        | (rw [hc, hs]
           intro hh
           exact i1 ▸ hinv.2 hh)
  | flush g _ ih =>
    obtain ⟨i1, i2, i3, i4, i5, i6⟩ := ih
    have hp := Flush_params g
    refine ⟨hp.1.trans i1, hp.2.1.trans i2, hp.2.2.1.trans i3,
      hp.2.2.2.trans i4, ?_, ?_⟩
    · by_cases hsil : g.state = VolumeRampState.Silence
      · simp [VolumeRampFilter.Flush, consumePending_eq, hsil]
      · have ht0 : 0 ≤ (if g.state = VolumeRampState.RampUp
            then g.volume_ramp_time - g.cur_time else g.cur_time) := by
          split
          · rename_i hru
            have h6 := i6 hru
            linarith
          · exact i5
        have hdur : 0 ≤ g.input_fmt.SizeToTime
            (g.ramp_block_size * g.input_fmt.frameSize) :=
          SizeToTime_nonneg _ _
        rcases Flush_cur_time_cases g hsil with hc | hc
        · rw [hc]
        · rw [hc]
          exact add_nonneg ht0 hdur
    · by_cases hsil : g.state = VolumeRampState.Silence
      · rw [(Flush_state_silence g hsil).1]
        intro hcon
        cases hcon
      · rcases Flush_state_cases g hsil with hs | hs <;>
          (rw [hs]; intro hcon; cases hcon)

/-- C3: Flush termination — from any reachable state, repeated `Flush`
calls return an empty result within at most
`⌈ramp_time / block-duration⌉ + 1` calls (`flushOut f k` is the output of
call `k + 1`), and once a call returns empty, every later `Flush` (with no
other operation in between) also returns empty. -/
theorem claim_C3_flush_termination (fmt : AudioFormat) (rt sat : ℚ)
    (bs : ℕ) (f : VolumeRampFilter)
    (hr : 0 < fmt.sampleRate) (hf : 0 < fmt.frameSize) (hb : 0 < bs)
    (hrt : 0 < rt) (hreach : Reachable fmt rt sat bs f) :
    (∃ k : ℕ,
      k < (⌈rt / fmt.SizeToTime (bs * fmt.frameSize)⌉).toNat + 1 ∧
      flushOut f k = []) ∧
    (∀ k j : ℕ, flushOut f k = [] → k ≤ j → flushOut f j = []) := by
  obtain ⟨i1, i2, i3, i4, i5, i6⟩ :=
    reachable_invariant fmt rt sat bs (le_of_lt hrt) f hreach
  have hdurpos : 0 < fmt.SizeToTime (bs * fmt.frameSize) :=
    SizeToTime_pos fmt hr hf _ (Nat.mul_pos hb hf)
  set dur := fmt.SizeToTime (bs * fmt.frameSize) with hdur_def
  have hdfeq : f.input_fmt.SizeToTime
      (f.ramp_block_size * f.input_fmt.frameSize) = dur := by
    rw [i3, i4]
  have hceil : (0 : ℤ) < ⌈rt / dur⌉ := Int.ceil_pos.mpr (div_pos hrt hdurpos)
  set N := (⌈rt / dur⌉).toNat with hN_def
  have hN1 : 1 ≤ N := by omega
  have hcast : ((N : ℤ) : ℚ) = ((⌈rt / dur⌉ : ℤ) : ℚ) := by
    rw [hN_def, Int.toNat_of_nonneg (le_of_lt hceil)]
  have hNdur : rt ≤ (N : ℚ) * dur := by
    have h1 : rt / dur ≤ ((⌈rt / dur⌉ : ℤ) : ℚ) := Int.le_ceil _
    have h2 : rt / dur * dur ≤ ((⌈rt / dur⌉ : ℤ) : ℚ) * dur :=
      mul_le_mul_of_nonneg_right h1 (le_of_lt hdurpos)
    rw [div_mul_cancel₀ rt (ne_of_gt hdurpos)] at h2
    calc rt ≤ ((⌈rt / dur⌉ : ℤ) : ℚ) * dur := h2
      _ = (N : ℚ) * dur := by rw [← hcast]; push_cast; ring
  -- the empty-implies-Silence direction, and stability of Silence
  have hempty_sil : ∀ k, flushOut f k = [] →
      (flushN f k).state = VolumeRampState.Silence := by
    intro k hk
    by_contra hne
    have hlen := Flush_out_length (flushN f k) hne
    rw [flushOut] at hk
    rw [hk] at hlen
    have hp := flushN_params f k
    rw [hp.2.2.1, hp.2.2.2, i3, i4] at hlen
    have := Nat.mul_pos hb hf
    simp at hlen
    omega
  have hsil_stable : ∀ k m, (flushN f k).state = VolumeRampState.Silence →
      (flushN f (k + m)).state = VolumeRampState.Silence := by
    intro k m hsil
    induction m with
    | zero => exact hsil
    | succ m ih =>
      show ((flushN f (k + m)).Flush).1.state = VolumeRampState.Silence
      exact (Flush_state_silence _ ih).1
  have hsil_out : ∀ k, (flushN f k).state = VolumeRampState.Silence →
      flushOut f k = [] := by
    intro k hsil
    exact (Flush_state_silence _ hsil).2
  constructor
  · -- termination within the bound: find j ≤ N with Silence state
    have hj : ∃ j ≤ N, (flushN f j).state = VolumeRampState.Silence := by
      by_cases hsil : f.state = VolumeRampState.Silence
      · exact ⟨0, Nat.zero_le _, hsil⟩
      · have ht0 : 0 ≤ (if f.state = VolumeRampState.RampUp
            then f.volume_ramp_time - f.cur_time else f.cur_time) := by
          split
          · rename_i hru
            have h6 := i6 hru
            rw [i1]
            linarith
          · exact i5
        by_cases hth : f.volume_ramp_time ≤
            (if f.state = VolumeRampState.RampUp
             then f.volume_ramp_time - f.cur_time else f.cur_time) +
            f.input_fmt.SizeToTime (f.ramp_block_size * f.input_fmt.frameSize)
        · exact ⟨1, hN1, ((Flush_state_step f hsil).1 hth).1⟩
        · obtain ⟨hs1, hc1⟩ := (Flush_state_step f hsil).2 hth
          have ht0r : 0 ≤ (if f.state = VolumeRampState.RampUp
              then rt - f.cur_time else f.cur_time) := by
            rw [← i1]
            exact ht0
          have hdlt : dur < rt := by
            rw [hdfeq, i1] at hth
            have h2 := not_le.mp hth
            linarith
          have hN2 : 2 ≤ N := by
            have h1 : (1 : ℚ) < rt / dur := (one_lt_div hdurpos).mpr hdlt
            have h2 : (1 : ℤ) < ⌈rt / dur⌉ := by
              rw [Int.lt_ceil]
              exact_mod_cast h1
            omega
          have hp := Flush_params f
          have hcover : ((f.Flush).1).volume_ramp_time ≤
              ((f.Flush).1).cur_time + ((N - 2) + 1 : ℕ) *
              ((f.Flush).1).input_fmt.SizeToTime
                (((f.Flush).1).ramp_block_size *
                 ((f.Flush).1).input_fmt.frameSize) := by
            rw [hp.1, hp.2.2.2, hp.2.2.1, hc1, hdfeq, i1]
            have hcast2 : (((N - 2) + 1 : ℕ) : ℚ) = (N : ℚ) - 1 := by
              have : ((N - 2) + 1 : ℕ) = N - 1 := by omega
              rw [this]
              push_cast [Nat.cast_sub hN1]
              ring
            rw [hcast2]
            have hsplit : (N : ℚ) * dur = ((N : ℚ) - 1) * dur + dur := by
              ring
            linarith [hNdur, ht0r]
          obtain ⟨k, hk, hsil2⟩ :=
            flushN_silence_of_rampdown (N - 2) ((f.Flush).1) hs1 hcover
          refine ⟨k + 1, by omega, ?_⟩
          rw [flushN_shift]
          exact hsil2
    obtain ⟨j, hjN, hjsil⟩ := hj
    exact ⟨j, by omega, hsil_out j hjsil⟩
  · intro k j hk hkj
    have hsil := hempty_sil k hk
    have := hsil_stable k (j - k) hsil
    rw [Nat.add_sub_cancel' hkj] at this
    exact hsil_out j this

/-- C3 witness. -/
theorem claim_C3_flush_termination_witness :
    (∃ k : ℕ,
      k < (⌈(1 : ℚ) / AudioFormat.SizeToTime ⟨2, 1, 7⟩ (1 * 1)⌉).toNat + 1 ∧
      flushOut (mkVolumeRampFilter ⟨2, 1, 7⟩ 1 1 1) k = []) ∧
    (∀ k j : ℕ, flushOut (mkVolumeRampFilter ⟨2, 1, 7⟩ 1 1 1) k = [] →
      k ≤ j → flushOut (mkVolumeRampFilter ⟨2, 1, 7⟩ 1 1 1) j = []) :=
  claim_C3_flush_termination ⟨2, 1, 7⟩ 1 1 1
    (mkVolumeRampFilter ⟨2, 1, 7⟩ 1 1 1)
    (by decide) (by decide) (by decide) (by norm_num) Reachable.mk

end VolumeRamp
